import Mathlib

/-!
Verification of the group-allocation engine of `tut_01/app.py`
(Student Group Management System).

The development shallowly embeds the algorithmic core of the program:

* `BranchExtractor.get_department_code` — regex `[A-Z]{2}` search over the
  roll number (here: scan for the first two consecutive ASCII uppercase
  letters);
* `BalancedDistributionStrategy` — per-department FIFO queues in
  priority-then-first-seen order, round-robin filling of `N` groups with
  targets `base (+1)`;
* `DepartmentClusteringStrategy` — capacity `ceil(total/N)`, phase 1 carving
  homogeneous chunks per department, phase 2 merging leftover blocks through
  a deque with split-and-push-front, overflow check, padding with empties;
* `GroupStatisticsGenerator` — dense per-group / per-department count table.

Machine integers of the source are modelled as `Nat` (the quantities involved
are list lengths, no overflow is possible); Python's `ZeroDivisionError` and
`ValueError` are modelled with `Except`.  The clustering strategy's category
order comes from `pandas.value_counts(...).sort_values(...)`, whose order on
population ties is an artefact of the library; the embedding therefore takes
the department order as an explicit parameter and the theorems quantify over
every order the library could produce (distinct departments, exactly those
present in the roster).
-/

/-- Embeds the `StudentRecord` dataclass of `app.py` (four string fields). -/
structure StudentRecord where
  roll_number : String
  full_name : String
  email_address : String
  department : String
deriving DecidableEq, Repr

/-- Embeds `CONFIG['branch_priority']`. -/
def branch_priority : List String :=
  ["AI", "CB", "CE", "CH", "CS", "CT", "EC", "MC", "MM", "MT"]

/-! ### BranchExtractor.get_department_code -/

/-- Scan for the leftmost pair of adjacent ASCII uppercase letters, the
semantics of `re.search(r"[A-Z]{2}", s)` in `get_department_code`. -/
def findUpperPair : List Char → Option (Char × Char)
  | [] => none
  | [_] => none
  | a :: b :: rest =>
    if a.isUpper && b.isUpper then some (a, b) else findUpperPair (b :: rest)

/-- Embeds `BranchExtractor.get_department_code`.  `none` models a `NaN`
roll-number cell (`pd.isna`); otherwise the first match of `[A-Z]{2}` is
returned, and `"UNKNOWN"` when there is none. -/
def get_department_code : Option String → String
  | none => "UNKNOWN"
  | some s =>
    match findUpperPair s.data with
    | some (a, b) => String.mk [a, b]
    | none => "UNKNOWN"

/-- `true` iff the character list contains two adjacent ASCII uppercase
letters somewhere (the condition for `re.search(r"[A-Z]{2}")` to match). -/
def hasUpperPair : List Char → Bool
  | [] => false
  | [_] => false
  | a :: b :: rest => (a.isUpper && b.isUpper) || hasUpperPair (b :: rest)

/-! ### BalancedDistributionStrategy -/

/-- Failure modes of `create_groups`: `zeroDivision` models Python's
`ZeroDivisionError` (raised by `total // N` resp. `math.ceil(total / N)` when
`N = 0`), `tooManyGroups` models the `ValueError` raised by
`DepartmentClusteringStrategy.create_groups` when more groups than requested
were produced. -/
inductive AllocError where
  | zeroDivision : AllocError
  | tooManyGroups : Nat → AllocError
deriving DecidableEq, Repr

/-- Distinct values in first-appearance order, the semantics of
`student_data["Department"].unique()`. -/
def firstSeen : List String → List String
  | [] => []
  | d :: rest => d :: (firstSeen rest).filter (fun x => x ≠ d)

/-- The department order of `_initialize_department_queues`: departments from
`CONFIG['branch_priority']` that occur in the data, in priority order, then
the remaining departments in first-appearance order. -/
def ordered_departments (priority : List String) (roster : List StudentRecord) :
    List String :=
  let available := firstSeen (roster.map (·.department))
  priority.filter (fun d => d ∈ available) ++ available.filter (fun d => d ∉ priority)

/-- Embeds `_initialize_department_queues`: an insertion-ordered dict from
department to the FIFO queue of that department's records in roster order. -/
def initialize_department_queues (priority : List String)
    (roster : List StudentRecord) : List (String × List StudentRecord) :=
  (ordered_departments priority roster).map
    (fun d => (d, roster.filter (fun r => r.department = d)))

/-- One pass of the inner `for dept, queue in self.department_queues.items()`
loop of `BalancedDistributionStrategy.create_groups`: walk the queues in dict
order, popping one record from each non-empty queue into the group until the
group reaches its target size.  Returns the group, the updated queues and the
`assigned_in_round` flag. -/
def rrPass (target : Nat) (group : List StudentRecord) :
    List (String × List StudentRecord) →
    List StudentRecord × List (String × List StudentRecord) × Bool
  | [] => (group, [], false)
  | (d, q) :: rest =>
    if target ≤ group.length then (group, (d, q) :: rest, false)
    else
      match q with
      | [] =>
        let r := rrPass target group rest
        (r.1, (d, []) :: r.2.1, r.2.2)
      | x :: xs =>
        let r := rrPass target (group ++ [x]) rest
        (r.1, (d, xs) :: r.2.1, true)

/-- The `while len(groups[group_idx]) < target_size` loop: repeat passes until
the target is reached or a pass assigns nothing.  `fuel` bounds the number of
iterations; every call below supplies `target + 1`, which is enough because
each continuing pass grows the group by at least one record. -/
def rrFill (fuel target : Nat) (group : List StudentRecord)
    (queues : List (String × List StudentRecord)) :
    List StudentRecord × List (String × List StudentRecord) :=
  match fuel with
  | 0 => (group, queues)
  | fuel + 1 =>
    if group.length < target then
      let r := rrPass target group queues
      if r.2.2 then rrFill fuel target r.1 r.2.1 else (r.1, r.2.1)
    else (group, queues)

/-- The outer `for group_idx in range(self.num_groups)` loop: fill one group
per target, threading the shared queues through. -/
def rrLoop : List Nat → List (String × List StudentRecord) →
    List (List StudentRecord) × List (String × List StudentRecord)
  | [], queues => ([], queues)
  | t :: ts, queues =>
    let r := rrFill (t + 1) t [] queues
    let s := rrLoop ts r.2
    (r.1 :: s.1, s.2)

/-- The per-group target sizes of `create_groups`:
`base_size + (1 if i < extra_students else 0)`. -/
def group_targets (total num_groups : Nat) : List Nat :=
  (List.range num_groups).map
    (fun i => total / num_groups + if i < total % num_groups then 1 else 0)

/-- Embeds `BalancedDistributionStrategy.create_groups`.  With `N = 0` the
source raises `ZeroDivisionError` at `total_students // self.num_groups`. -/
def balanced_create_groups (priority : List String) (roster : List StudentRecord)
    (num_groups : Nat) : Except AllocError (List (List StudentRecord)) :=
  if num_groups = 0 then .error .zeroDivision
  else .ok (rrLoop (group_targets roster.length num_groups)
      (initialize_department_queues priority roster)).1

/-! ### DepartmentClusteringStrategy -/

/-- Records of one department in roster order, the semantics of
`self.student_data[self.student_data["Department"] == dept]`. -/
def deptFilter (c : String) (l : List StudentRecord) : List StudentRecord :=
  l.filter (fun r => r.department = c)

/-- The `while dept_size - students_assigned >= target_group_size` loop of
phase 1 of `DepartmentClusteringStrategy.create_groups`: slice off
consecutive full chunks of `capacity` records, returning the chunks and the
remainder.  The source never runs this with `capacity = 0` (that needs an
empty roster, which yields no departments); the `0 < capacity` guard only
keeps the recursion well founded in that vacuous case. -/
def carve (capacity : Nat) (students : List StudentRecord) :
    List (List StudentRecord) × List StudentRecord :=
  if _h : 0 < capacity ∧ capacity ≤ students.length then
    let r := carve capacity (students.drop capacity)
    (students.take capacity :: r.1, r.2)
  else ([], students)
termination_by students.length
decreasing_by
  simp only [List.length_drop]
  omega

/-- Phase 1 (`Step 1: Create homogeneous department groups`): for each
department in order, emit the full groups of `capacity` records and collect
the non-empty remainder as a leftover block. -/
def phase1 (capacity : Nat) (deptOrder : List String)
    (roster : List StudentRecord) :
    List (List StudentRecord) × List (List StudentRecord) :=
  match deptOrder with
  | [] => ([], [])
  | d :: ds =>
    let c := carve capacity (deptFilter d roster)
    let s := phase1 capacity ds roster
    (c.1 ++ s.1, (if c.2.isEmpty then [] else [c.2]) ++ s.2)

/-- The `while available_space > 0 and remaining_queue` loop of phase 2:
extend the current group with whole blocks that fit; split the first block
that does not fit and push its unconsumed suffix back onto the front of the
queue. -/
def fillGroup (space : Nat) (current : List StudentRecord) :
    List (List StudentRecord) →
    List StudentRecord × List (List StudentRecord)
  | [] => (current, [])
  | b :: rest =>
    if space = 0 then (current, b :: rest)
    else if b.length ≤ space then fillGroup (space - b.length) (current ++ b) rest
    else (current ++ b.take space, b.drop space :: rest)

theorem fillGroup_queue_length_le (space : Nat) (current : List StudentRecord)
    (q : List (List StudentRecord)) :
    (fillGroup space current q).2.length ≤ q.length := by
  induction q generalizing space current with
  | nil => simp [fillGroup]
  | cons b rest ih =>
    simp only [fillGroup]
    by_cases h0 : space = 0
    · simp [h0]
    · simp only [h0, if_false]
      by_cases hb : b.length ≤ space
      · simp only [hb, if_true]
        exact le_trans (ih _ _) (Nat.le_succ _)
      · simp [hb]

/-- The `while remaining_queue` loop of phase 2: pop the front block to start
a new group, fill it, emit it, repeat. -/
def phase2 (capacity : Nat) : List (List StudentRecord) → List (List StudentRecord)
  | [] => []
  | b :: rest =>
    (fillGroup (capacity - b.length) b rest).1 ::
      phase2 capacity (fillGroup (capacity - b.length) b rest).2
termination_by q => q.length
decreasing_by
  simp only [List.length_cons]
  exact Nat.lt_succ_of_le (fillGroup_queue_length_le _ _ _)

/-- Embeds `DepartmentClusteringStrategy.create_groups`, parametrized by the
department order `deptOrder` that the source obtains from
`value_counts().sort_values(ascending=False)` (see the header note on the
library-dependent tie order).  The phase-2 block sort
`remaining_blocks.sort(key=len, reverse=True)` is Python's stable Timsort,
modelled by the stable `List.mergeSort`.  With `N = 0` the source raises
`ZeroDivisionError` at `math.ceil(total / N)`.  `emitted_groups` is the
group list after phases 1 and 2, before the count check and the padding. -/
def emitted_groups (deptOrder : List String) (roster : List StudentRecord)
    (num_groups : Nat) : List (List StudentRecord) :=
  let capacity := (roster.length + num_groups - 1) / num_groups
  let p := phase1 capacity deptOrder roster
  p.1 ++ phase2 capacity (p.2.mergeSort (fun a b => b.length ≤ a.length))

/-- The count check and empty-group padding of
`DepartmentClusteringStrategy.create_groups`, wrapped around
`emitted_groups`. -/
def clustering_create_groups (deptOrder : List String)
    (roster : List StudentRecord) (num_groups : Nat) :
    Except AllocError (List (List StudentRecord)) :=
  if num_groups = 0 then .error .zeroDivision
  else
    let groups := emitted_groups deptOrder roster num_groups
    if num_groups < groups.length then .error (.tooManyGroups groups.length)
    else .ok (groups ++ List.replicate (num_groups - groups.length) [])

/-! ### GroupStatisticsGenerator -/

/-- Number of records of department `d` in a group (the
`dept_counts[record.department] += 1` tally). -/
def countDept (d : String) (group : List StudentRecord) : Nat :=
  (deptFilter d group).length

/-- The `sorted_departments` column list of `generate_statistics`: the set of
departments appearing in any group, sorted. -/
def sorted_departments (groups : List (List StudentRecord)) : List String :=
  ((groups.flatten.map (·.department)).dedup).mergeSort (fun a b => a ≤ b)

/-- One row of the statistics matrix: the per-department cells in column
order, and the `Total_Students` cell.  The source initializes the matrix
with zeros and fills a row only when `if group:` is truthy, which yields the
same counts either way. -/
def statsRow (depts : List String) (group : List StudentRecord) :
    List Nat × Nat :=
  if group.isEmpty then (depts.map (fun _ => 0), 0)
  else (depts.map (fun d => countDept d group), group.length)

/-- Embeds `GroupStatisticsGenerator.generate_statistics`: the column names
(department columns then `"Total_Students"`) and one row per requested group
(`index=[f"Group_{i+1}" for i in range(self.total_groups)]`). -/
def generate_statistics (groups : List (List StudentRecord))
    (total_groups : Nat) : List String × List (List Nat × Nat) :=
  (sorted_departments groups ++ ["Total_Students"],
   (List.range total_groups).map
     (fun i => statsRow (sorted_departments groups) (groups.getD i [])))

/-! ### Notions used by the statements -/

/-- The queue stored under key `c` in a queue dict (empty when absent). -/
def queueOf (c : String) : List (String × List StudentRecord) → List StudentRecord
  | [] => []
  | (d, q) :: rest => if d = c then q else queueOf c rest

/-- All records still waiting in the queues, in dict order. -/
def flatQueues (queues : List (String × List StudentRecord)) : List StudentRecord :=
  (queues.map Prod.snd).flatten

/-- Shorthand for concrete records in scenarios and witnesses (name, e-mail
address empty, department set directly as the allocators read it from the
`Department` column). -/
def mkRec (roll dept : String) : StudentRecord :=
  ⟨roll, "", "", dept⟩

/-- The Scenario A roster: categories `A`, `B`, `C`, two records each, in
roster order `A1, A2, B1, B2, C1, C2`. -/
def scenarioA_roster : List StudentRecord :=
  [mkRec "A1" "A", mkRec "A2" "A", mkRec "B1" "B",
   mkRec "B2" "B", mkRec "C1" "C", mkRec "C2" "C"]

/-! ## Theorems

### BranchExtractor -/

theorem findUpperPair_eq_none_of_not_has :
    ∀ l : List Char, hasUpperPair l = false → findUpperPair l = none := by
  intro l h
  induction l with
  | nil => rfl
  | cons a t ih =>
    cases t with
    | nil => rfl
    | cons b r =>
      simp only [hasUpperPair, Bool.or_eq_false_iff] at h
      simp only [findUpperPair, h.1, if_false]
      exact ih h.2

theorem findUpperPair_append :
    ∀ (p : List Char) (a b : Char) (t : List Char),
      a.isUpper = true → b.isUpper = true →
      hasUpperPair (p ++ [a]) = false →
      findUpperPair (p ++ a :: b :: t) = some (a, b) := by
  intro p
  induction p with
  | nil =>
    intro a b t ha hb _
    simp [findUpperPair, ha, hb]
  | cons c cs ih =>
    intro a b t ha hb hno
    cases cs with
    | nil =>
      simp only [hasUpperPair, List.cons_append, List.nil_append,
        Bool.or_eq_false_iff] at hno
      simp only [List.cons_append, List.nil_append, findUpperPair, hno.1,
        if_false]
      simp [findUpperPair, ha, hb]
    | cons d ds =>
      simp only [hasUpperPair, List.cons_append, Bool.or_eq_false_iff] at hno
      simp only [List.cons_append, findUpperPair, hno.1, if_false]
      exact ih a b t ha hb hno.2

/-- **C5** Category extraction: `BranchExtractor.get_department_code` returns
the sentinel `"UNKNOWN"` on a null (`NaN`) identifier, on the empty
identifier, and on any identifier containing no two adjacent ASCII uppercase
letters; when the identifier does contain such a pair, it returns exactly the
two characters at the leftmost such position (the first match of
`[A-Z]{2}`).  The embedded function is total, hence pure and non-raising. -/
theorem claim_category_extraction :
    get_department_code none = "UNKNOWN" ∧
    get_department_code (some "") = "UNKNOWN" ∧
    (∀ s : String, hasUpperPair s.data = false →
      get_department_code (some s) = "UNKNOWN") ∧
    (∀ (s : String) (p t : List Char) (a b : Char),
      s.data = p ++ a :: b :: t →
      a.isUpper = true → b.isUpper = true →
      hasUpperPair (p ++ [a]) = false →
      get_department_code (some s) = String.mk [a, b]) := by
  refine ⟨rfl, rfl, ?_, ?_⟩
  · intro s h
    simp only [get_department_code, findUpperPair_eq_none_of_not_has s.data h]
  · intro s p t a b hs ha hb hno
    simp only [get_department_code, hs, findUpperPair_append p a b t ha hb hno]

/-- Witness for `claim_category_extraction` at the identifiers `"2511AI57"`
(first `[A-Z]{2}` match `"AI"`) and `"roll"` (no match). -/
theorem claim_category_extraction_witness :
    get_department_code (some "2511AI57") = "AI" ∧
    get_department_code (some "roll") = "UNKNOWN" := by
  constructor
  · exact claim_category_extraction.2.2.2 "2511AI57" "2511".data "57".data
      'A' 'I' (by decide) (by decide) (by decide) (by decide)
  · exact claim_category_extraction.2.2.1 "roll" (by decide)

/-! ### Scenario A -/

/-- **C9** Scenario A: on the roster `[A1, A2, B1, B2, C1, C2]` (categories
`A`, `B`, `C`, two records each) with priority order `[A, B, C]` and `N = 3`,
the round-robin allocator computes the targets `[2, 2, 2]` and returns
exactly `G1 = [A1, B1]`, `G2 = [A2, B2]`, `G3 = [C1, C2]`.  The production
priority catalog `CONFIG['branch_priority']` gives the same partition, since
`A`, `B`, `C` fall back to first-seen order either way. -/
theorem claim_scenario_a :
    group_targets scenarioA_roster.length 3 = [2, 2, 2] ∧
    balanced_create_groups ["A", "B", "C"] scenarioA_roster 3 =
      .ok [[mkRec "A1" "A", mkRec "B1" "B"],
           [mkRec "A2" "A", mkRec "B2" "B"],
           [mkRec "C1" "C", mkRec "C2" "C"]] ∧
    balanced_create_groups branch_priority scenarioA_roster 3 =
      .ok [[mkRec "A1" "A", mkRec "B1" "B"],
           [mkRec "A2" "A", mkRec "B2" "B"],
           [mkRec "C1" "C", mkRec "C2" "C"]] := by
  refine ⟨by decide, rfl, rfl⟩

/-! ### Round-robin: queue bookkeeping -/

theorem flatQueues_cons (d : String) (q : List StudentRecord)
    (rest : List (String × List StudentRecord)) :
    flatQueues ((d, q) :: rest) = q ++ flatQueues rest := by
  simp [flatQueues]

theorem queueOf_eq_nil_of_not_mem (c : String) :
    ∀ qs : List (String × List StudentRecord),
      c ∉ qs.map Prod.fst → queueOf c qs = [] := by
  intro qs
  induction qs with
  | nil => intro _; rfl
  | cons p rest ih =>
    obtain ⟨d, q⟩ := p
    intro h
    simp only [List.map_cons, List.mem_cons, not_or] at h
    simp only [queueOf]
    rw [if_neg (fun hdc => h.1 hdc.symm)]
    exact ih h.2

theorem queueOf_eq_nil_of_all_nil (c : String) :
    ∀ qs : List (String × List StudentRecord),
      (∀ p ∈ qs, p.2 = []) → queueOf c qs = [] := by
  intro qs
  induction qs with
  | nil => intro _; rfl
  | cons p rest ih =>
    obtain ⟨d, q⟩ := p
    intro h
    have hq : q = [] := h (d, q) (List.mem_cons_self _ _)
    simp only [queueOf]
    by_cases hdc : d = c
    · rw [if_pos hdc]; exact hq
    · rw [if_neg hdc]
      exact ih fun p hp => h p (List.mem_cons_of_mem _ hp)

theorem all_nil_of_flatQueues_len_zero :
    ∀ qs : List (String × List StudentRecord),
      (flatQueues qs).length = 0 → ∀ p ∈ qs, p.2 = [] := by
  intro qs
  induction qs with
  | nil => intro _ p hp; cases hp
  | cons p rest ih =>
    obtain ⟨d, q⟩ := p
    intro h
    rw [flatQueues_cons, List.length_append] at h
    intro p hp
    rcases List.mem_cons.mp hp with h1 | h2
    · subst h1
      show q = []
      exact List.eq_nil_of_length_eq_zero (by omega)
    · exact ih (by omega) p h2

theorem deptFilter_append (c : String) (l₁ l₂ : List StudentRecord) :
    deptFilter c (l₁ ++ l₂) = deptFilter c l₁ ++ deptFilter c l₂ := by
  simp [deptFilter]

theorem rrPass_keys (target : Nat) :
    ∀ (qs : List (String × List StudentRecord)) (group : List StudentRecord),
      (rrPass target group qs).2.1.map Prod.fst = qs.map Prod.fst := by
  intro qs
  induction qs with
  | nil => intro group; rfl
  | cons p rest ih =>
    obtain ⟨d, q⟩ := p
    intro group
    simp only [rrPass]
    by_cases h : target ≤ group.length
    · rw [if_pos h]
    · rw [if_neg h]
      cases q with
      | nil => simp [ih]
      | cons x xs => simp [ih]

theorem rrPass_wf1 (target : Nat) :
    ∀ (qs : List (String × List StudentRecord)) (group : List StudentRecord),
      (∀ p ∈ qs, ∀ r ∈ p.2, r.department = p.1) →
      ∀ p ∈ (rrPass target group qs).2.1, ∀ r ∈ p.2, r.department = p.1 := by
  intro qs
  induction qs with
  | nil => intro group _ p hp; cases hp
  | cons hd rest ih =>
    obtain ⟨d, q⟩ := hd
    intro group hwf
    have hwf_rest : ∀ p ∈ rest, ∀ r ∈ p.2, r.department = p.1 :=
      fun p hp => hwf p (List.mem_cons_of_mem _ hp)
    simp only [rrPass]
    by_cases h : target ≤ group.length
    · rw [if_pos h]; exact hwf
    · rw [if_neg h]
      cases q with
      | nil =>
        intro p hp
        rcases List.mem_cons.mp hp with h1 | h2
        · subst h1; intro r hr; cases hr
        · exact ih group hwf_rest p h2
      | cons x xs =>
        intro p hp
        rcases List.mem_cons.mp hp with h1 | h2
        · subst h1
          intro r hr
          exact hwf (d, x :: xs) (List.mem_cons_self _ _) r
            (List.mem_cons_of_mem _ hr)
        · exact ih (group ++ [x]) hwf_rest p h2

theorem rrPass_len (target : Nat) :
    ∀ (qs : List (String × List StudentRecord)) (group : List StudentRecord),
      (rrPass target group qs).1.length
          + (flatQueues (rrPass target group qs).2.1).length
        = group.length + (flatQueues qs).length := by
  intro qs
  induction qs with
  | nil => intro group; rfl
  | cons hd rest ih =>
    obtain ⟨d, q⟩ := hd
    intro group
    simp only [rrPass]
    by_cases h : target ≤ group.length
    · rw [if_pos h]
    · rw [if_neg h]
      cases q with
      | nil =>
        have := ih group
        simp only [flatQueues_cons, List.length_append, List.length_nil]
        omega
      | cons x xs =>
        have := ih (group ++ [x])
        simp only [flatQueues_cons, List.length_append, List.length_cons,
          List.length_append, List.length_cons, List.length_nil] at this ⊢
        omega

theorem rrPass_group_le (target : Nat) :
    ∀ (qs : List (String × List StudentRecord)) (group : List StudentRecord),
      group.length ≤ (rrPass target group qs).1.length := by
  intro qs
  induction qs with
  | nil => intro group; exact le_refl _
  | cons hd rest ih =>
    obtain ⟨d, q⟩ := hd
    intro group
    simp only [rrPass]
    by_cases h : target ≤ group.length
    · rw [if_pos h]
    · rw [if_neg h]
      cases q with
      | nil => exact ih group
      | cons x xs =>
        calc group.length ≤ (group ++ [x]).length := by
              simp
          _ ≤ _ := ih (group ++ [x])

theorem rrPass_group_bound (target : Nat) :
    ∀ (qs : List (String × List StudentRecord)) (group : List StudentRecord),
      group.length ≤ target → (rrPass target group qs).1.length ≤ target := by
  intro qs
  induction qs with
  | nil => intro group h; exact h
  | cons hd rest ih =>
    obtain ⟨d, q⟩ := hd
    intro group hle
    simp only [rrPass]
    by_cases h : target ≤ group.length
    · rw [if_pos h]; exact hle
    · rw [if_neg h]
      cases q with
      | nil => exact ih group hle
      | cons x xs =>
        refine ih (group ++ [x]) ?_
        simp only [List.length_append, List.length_cons, List.length_nil]
        omega

theorem rrPass_not_assigned (target : Nat) :
    ∀ (qs : List (String × List StudentRecord)) (group : List StudentRecord),
      (rrPass target group qs).2.2 = false →
      (rrPass target group qs).1 = group ∧
        (rrPass target group qs).2.1 = qs ∧
        (target ≤ group.length ∨ ∀ p ∈ qs, p.2 = ([] : List StudentRecord)) := by
  intro qs
  induction qs with
  | nil =>
    intro group _
    exact ⟨rfl, rfl, Or.inr fun p hp => by cases hp⟩
  | cons hd rest ih =>
    obtain ⟨d, q⟩ := hd
    intro group hfls
    simp only [rrPass] at hfls ⊢
    by_cases h : target ≤ group.length
    · rw [if_pos h]
      exact ⟨rfl, rfl, Or.inl h⟩
    · rw [if_neg h]
      rw [if_neg h] at hfls
      cases q with
      | nil =>
        simp only at hfls
        obtain ⟨h1, h2, h3⟩ := ih group hfls
        refine ⟨h1, by rw [h2], ?_⟩
        rcases h3 with h3 | h3
        · exact Or.inl h3
        · refine Or.inr fun p hp => ?_
          rcases List.mem_cons.mp hp with hh | hh
          · subst hh; rfl
          · exact h3 p hh
      | cons x xs =>
        simp only at hfls
        cases hfls

theorem rrPass_assigned_lt (target : Nat) :
    ∀ (qs : List (String × List StudentRecord)) (group : List StudentRecord),
      (rrPass target group qs).2.2 = true →
      group.length < (rrPass target group qs).1.length := by
  intro qs
  induction qs with
  | nil => intro group h; cases h
  | cons hd rest ih =>
    obtain ⟨d, q⟩ := hd
    intro group htr
    simp only [rrPass] at htr ⊢
    by_cases h : target ≤ group.length
    · rw [if_pos h] at htr; cases htr
    · rw [if_neg h] at htr ⊢
      cases q with
      | nil =>
        simp only at htr
        exact ih group htr
      | cons x xs =>
        have h1 : (group ++ [x]).length ≤ (rrPass target (group ++ [x]) rest).1.length :=
          rrPass_group_le target rest (group ++ [x])
        simp only [List.length_append, List.length_cons, List.length_nil] at h1
        simp only
        omega

theorem rrPass_filter (target : Nat) (c : String) :
    ∀ (qs : List (String × List StudentRecord)) (group : List StudentRecord),
      (∀ p ∈ qs, ∀ r ∈ p.2, r.department = p.1) →
      (qs.map Prod.fst).Nodup →
      deptFilter c (rrPass target group qs).1
          ++ queueOf c (rrPass target group qs).2.1
        = deptFilter c group ++ queueOf c qs := by
  intro qs
  induction qs with
  | nil => intro group _ _; rfl
  | cons hd rest ih =>
    obtain ⟨d, q⟩ := hd
    intro group hwf hnd
    have hwf_rest : ∀ p ∈ rest, ∀ r ∈ p.2, r.department = p.1 :=
      fun p hp => hwf p (List.mem_cons_of_mem _ hp)
    simp only [List.map_cons, List.nodup_cons] at hnd
    have hd_not : d ∉ rest.map Prod.fst := hnd.1
    have hnd_rest : (rest.map Prod.fst).Nodup := hnd.2
    simp only [rrPass]
    by_cases h : target ≤ group.length
    · rw [if_pos h]
    · rw [if_neg h]
      cases q with
      | nil =>
        by_cases hdc : d = c
        · subst hdc
          have hq_rest : queueOf d rest = [] :=
            queueOf_eq_nil_of_not_mem d rest hd_not
          have hq_res : queueOf d (rrPass target group rest).2.1 = [] := by
            apply queueOf_eq_nil_of_not_mem
            rw [rrPass_keys]
            exact hd_not
          have hih := ih group hwf_rest hnd_rest
          rw [hq_rest, hq_res] at hih
          simp only [queueOf, if_pos rfl]
          simpa using hih
        · simp only [queueOf, if_neg hdc]
          exact ih group hwf_rest hnd_rest
      | cons x xs =>
        have hx : x.department = d :=
          hwf (d, x :: xs) (List.mem_cons_self _ _) x (List.mem_cons_self _ _)
        by_cases hdc : d = c
        · subst hdc
          have hq_rest : queueOf d rest = [] :=
            queueOf_eq_nil_of_not_mem d rest hd_not
          have hq_res : queueOf d (rrPass target (group ++ [x]) rest).2.1 = [] := by
            apply queueOf_eq_nil_of_not_mem
            rw [rrPass_keys]
            exact hd_not
          have hih := ih (group ++ [x]) hwf_rest hnd_rest
          rw [hq_rest, hq_res] at hih
          simp only [List.append_nil] at hih
          simp only [queueOf, if_pos rfl]
          rw [hih, deptFilter_append]
          have hsing : deptFilter x.department [x] = [x] := by
            simp [deptFilter]
          rw [hx] at hsing
          rw [hsing, List.append_assoc]
          rfl
        · have hxc : deptFilter c [x] = [] := by
            simp [deptFilter, hx, hdc]
          have hih := ih (group ++ [x]) hwf_rest hnd_rest
          simp only [queueOf, if_neg hdc]
          rw [hih, deptFilter_append, hxc, List.append_nil]

theorem rrFill_keys (fuel target : Nat) :
    ∀ (group : List StudentRecord) (qs : List (String × List StudentRecord)),
      (rrFill fuel target group qs).2.map Prod.fst = qs.map Prod.fst := by
  induction fuel with
  | zero => intro group qs; rfl
  | succ n ih =>
    intro group qs
    by_cases h : group.length < target
    · cases ha : (rrPass target group qs).2.2 with
      | true =>
        simp only [rrFill, if_pos h, ha, if_true]
        rw [ih, rrPass_keys]
      | false =>
        simp only [rrFill, if_pos h, ha, Bool.false_eq_true, if_false]
        rw [rrPass_keys]
    · simp only [rrFill, if_neg h]

theorem rrFill_wf1 (fuel target : Nat) :
    ∀ (group : List StudentRecord) (qs : List (String × List StudentRecord)),
      (∀ p ∈ qs, ∀ r ∈ p.2, r.department = p.1) →
      ∀ p ∈ (rrFill fuel target group qs).2, ∀ r ∈ p.2, r.department = p.1 := by
  induction fuel with
  | zero => intro group qs hwf; exact hwf
  | succ n ih =>
    intro group qs hwf
    by_cases h : group.length < target
    · cases ha : (rrPass target group qs).2.2 with
      | true =>
        simp only [rrFill, if_pos h, ha, if_true]
        exact ih _ _ (rrPass_wf1 target qs group hwf)
      | false =>
        simp only [rrFill, if_pos h, ha, Bool.false_eq_true, if_false]
        exact rrPass_wf1 target qs group hwf
    · simp only [rrFill, if_neg h]
      exact hwf

theorem rrFill_filter (fuel target : Nat) (c : String) :
    ∀ (group : List StudentRecord) (qs : List (String × List StudentRecord)),
      (∀ p ∈ qs, ∀ r ∈ p.2, r.department = p.1) →
      (qs.map Prod.fst).Nodup →
      deptFilter c (rrFill fuel target group qs).1
          ++ queueOf c (rrFill fuel target group qs).2
        = deptFilter c group ++ queueOf c qs := by
  induction fuel with
  | zero => intro group qs _ _; rfl
  | succ n ih =>
    intro group qs hwf hnd
    by_cases h : group.length < target
    · cases ha : (rrPass target group qs).2.2 with
      | true =>
        simp only [rrFill, if_pos h, ha, if_true]
        have hwf' := rrPass_wf1 target qs group hwf
        have hnd' : ((rrPass target group qs).2.1.map Prod.fst).Nodup := by
          rw [rrPass_keys]; exact hnd
        rw [ih _ _ hwf' hnd']
        exact rrPass_filter target c qs group hwf hnd
      | false =>
        simp only [rrFill, if_pos h, ha, Bool.false_eq_true, if_false]
        exact rrPass_filter target c qs group hwf hnd
    · simp only [rrFill, if_neg h]

theorem rrFill_len (fuel target : Nat) :
    ∀ (group : List StudentRecord) (qs : List (String × List StudentRecord)),
      (rrFill fuel target group qs).1.length
          + (flatQueues (rrFill fuel target group qs).2).length
        = group.length + (flatQueues qs).length := by
  induction fuel with
  | zero => intro group qs; rfl
  | succ n ih =>
    intro group qs
    by_cases h : group.length < target
    · cases ha : (rrPass target group qs).2.2 with
      | true =>
        simp only [rrFill, if_pos h, ha, if_true]
        rw [ih]
        exact rrPass_len target qs group
      | false =>
        simp only [rrFill, if_pos h, ha, Bool.false_eq_true, if_false]
        exact rrPass_len target qs group
    · simp only [rrFill, if_neg h]

theorem rrFill_group_bound (fuel target : Nat) :
    ∀ (group : List StudentRecord) (qs : List (String × List StudentRecord)),
      group.length ≤ target → (rrFill fuel target group qs).1.length ≤ target := by
  induction fuel with
  | zero => intro group qs hle; exact hle
  | succ n ih =>
    intro group qs hle
    by_cases h : group.length < target
    · cases ha : (rrPass target group qs).2.2 with
      | true =>
        simp only [rrFill, if_pos h, ha, if_true]
        exact ih _ _ (rrPass_group_bound target qs group hle)
      | false =>
        simp only [rrFill, if_pos h, ha, Bool.false_eq_true, if_false]
        exact rrPass_group_bound target qs group hle
    · simp only [rrFill, if_neg h]
      exact hle

theorem rrFill_exact (fuel target : Nat) :
    ∀ (group : List StudentRecord) (qs : List (String × List StudentRecord)),
      group.length ≤ target →
      target - group.length < fuel →
      target ≤ group.length + (flatQueues qs).length →
      (rrFill fuel target group qs).1.length = target := by
  induction fuel with
  | zero => intro group qs _ hf _; omega
  | succ n ih =>
    intro group qs hle hf hcap
    by_cases h : group.length < target
    · cases ha : (rrPass target group qs).2.2 with
      | true =>
        simp only [rrFill, if_pos h, ha, if_true]
        have hlt := rrPass_assigned_lt target qs group ha
        have hbound := rrPass_group_bound target qs group hle
        have hlen := rrPass_len target qs group
        exact ih _ _ hbound (by omega) (by omega)
      | false =>
        obtain ⟨h1, h2, h3⟩ := rrPass_not_assigned target qs group ha
        rcases h3 with h3 | h3
        · omega
        · have hemp : flatQueues qs = [] := by
            simp only [flatQueues, List.flatten_eq_nil_iff]
            intro l hl
            rcases List.mem_map.mp hl with ⟨p, hp, rfl⟩
            exact h3 p hp
          rw [hemp] at hcap
          simp only [List.length_nil] at hcap
          omega
    · simp only [rrFill, if_neg h]
      omega

theorem rrLoop_count :
    ∀ (ts : List Nat) (qs : List (String × List StudentRecord)),
      (rrLoop ts qs).1.length = ts.length := by
  intro ts
  induction ts with
  | nil => intro qs; rfl
  | cons t ts ih =>
    intro qs
    simp only [rrLoop, List.length_cons, ih]

theorem rrLoop_filter (c : String) :
    ∀ (ts : List Nat) (qs : List (String × List StudentRecord)),
      (∀ p ∈ qs, ∀ r ∈ p.2, r.department = p.1) →
      (qs.map Prod.fst).Nodup →
      deptFilter c (rrLoop ts qs).1.flatten ++ queueOf c (rrLoop ts qs).2
        = queueOf c qs := by
  intro ts
  induction ts with
  | nil =>
    intro qs _ _
    simp only [rrLoop, List.flatten_nil]
    rfl
  | cons t ts ih =>
    intro qs hwf hnd
    have hwf' := rrFill_wf1 (t + 1) t [] qs hwf
    have hnd' : ((rrFill (t + 1) t [] qs).2.map Prod.fst).Nodup := by
      rw [rrFill_keys]; exact hnd
    simp only [rrLoop, List.flatten_cons, deptFilter_append, List.append_assoc]
    rw [ih _ hwf' hnd']
    have := rrFill_filter (t + 1) t c [] qs hwf hnd
    simpa using this

theorem rrLoop_lengths :
    ∀ (ts : List Nat) (qs : List (String × List StudentRecord)),
      ts.sum ≤ (flatQueues qs).length →
      (rrLoop ts qs).1.map List.length = ts ∧
        (flatQueues (rrLoop ts qs).2).length
          = (flatQueues qs).length - ts.sum := by
  intro ts
  induction ts with
  | nil => intro qs _; exact ⟨rfl, by simp [rrLoop]⟩
  | cons t ts ih =>
    intro qs hsum
    simp only [List.sum_cons] at hsum
    have hfirst : (rrFill (t + 1) t [] qs).1.length = t := by
      apply rrFill_exact (t + 1) t [] qs (Nat.zero_le t) (by omega)
      simp only [List.length_nil, Nat.zero_add]
      omega
    have hlen := rrFill_len (t + 1) t [] qs
    simp only [List.length_nil, Nat.zero_add] at hlen
    have hrest : ts.sum ≤ (flatQueues (rrFill (t + 1) t [] qs).2).length := by
      omega
    obtain ⟨ih1, ih2⟩ := ih _ hrest
    constructor
    · simp only [rrLoop, List.map_cons, hfirst, ih1]
    · simp only [rrLoop, ih2, List.sum_cons]
      omega

/-! ### Queue initialization -/

theorem firstSeen_nodup : ∀ l : List String, (firstSeen l).Nodup := by
  intro l
  induction l with
  | nil => exact List.nodup_nil
  | cons d rest ih =>
    simp only [firstSeen, List.nodup_cons]
    constructor
    · intro hmem
      have := (List.mem_filter.mp hmem).2
      simp at this
    · exact ih.filter _

theorem mem_firstSeen : ∀ (l : List String) (x : String),
    x ∈ firstSeen l ↔ x ∈ l := by
  intro l
  induction l with
  | nil => intro x; rfl
  | cons d rest ih =>
    intro x
    simp only [firstSeen, List.mem_cons, List.mem_filter, ih]
    constructor
    · rintro (h | ⟨h, _⟩)
      · exact Or.inl h
      · exact Or.inr h
    · rintro (h | h)
      · exact Or.inl h
      · by_cases hxd : x = d
        · exact Or.inl hxd
        · exact Or.inr ⟨h, by simpa using hxd⟩

theorem ordered_departments_nodup (priority : List String)
    (roster : List StudentRecord) (hp : priority.Nodup) :
    (ordered_departments priority roster).Nodup := by
  unfold ordered_departments
  refine List.Nodup.append (hp.filter _) ((firstSeen_nodup _).filter _) ?_
  intro x hx1 hx2
  have h1 : x ∈ priority := (List.mem_filter.mp hx1).1
  have h2 := (List.mem_filter.mp hx2).2
  simp only [decide_not, Bool.not_eq_true', decide_eq_false_iff_not] at h2
  exact h2 h1

theorem mem_ordered_departments (priority : List String)
    (roster : List StudentRecord) (r : StudentRecord) (hr : r ∈ roster) :
    r.department ∈ ordered_departments priority roster := by
  unfold ordered_departments
  have havail : r.department ∈ firstSeen (roster.map (·.department)) := by
    rw [mem_firstSeen]
    exact List.mem_map.mpr ⟨r, hr, rfl⟩
  by_cases hp : r.department ∈ priority
  · refine List.mem_append_left _ ?_
    refine List.mem_filter.mpr ⟨hp, ?_⟩
    simpa using havail
  · refine List.mem_append_right _ ?_
    refine List.mem_filter.mpr ⟨havail, ?_⟩
    simpa using hp

theorem init_keys (priority : List String) (roster : List StudentRecord) :
    (initialize_department_queues priority roster).map Prod.fst
      = ordered_departments priority roster := by
  unfold initialize_department_queues
  rw [List.map_map]
  exact List.map_id _

theorem init_wf1 (priority : List String) (roster : List StudentRecord) :
    ∀ p ∈ initialize_department_queues priority roster,
      ∀ r ∈ p.2, r.department = p.1 := by
  intro p hp r hr
  rcases List.mem_map.mp hp with ⟨d, _, rfl⟩
  have := (List.mem_filter.mp hr).2
  simpa using this

theorem queueOf_map_deptFilter (roster : List StudentRecord) :
    ∀ (keys : List String) (c : String),
      queueOf c (keys.map (fun d => (d, deptFilter d roster)))
        = if c ∈ keys then deptFilter c roster else [] := by
  intro keys
  induction keys with
  | nil => intro c; simp [queueOf]
  | cons k ks ih =>
    intro c
    simp only [List.map_cons, queueOf]
    by_cases hkc : k = c
    · subst hkc
      simp
    · rw [if_neg hkc, ih]
      by_cases hc : c ∈ ks
      · rw [if_pos hc, if_pos (List.mem_cons_of_mem _ hc)]
      · rw [if_neg hc, if_neg ?_]
        intro hmem
        rcases List.mem_cons.mp hmem with h | h
        · exact hkc h.symm
        · exact hc h

theorem queueOf_init (priority : List String) (roster : List StudentRecord)
    (c : String) :
    queueOf c (initialize_department_queues priority roster)
      = if c ∈ ordered_departments priority roster then deptFilter c roster
        else [] := by
  unfold initialize_department_queues
  exact queueOf_map_deptFilter roster _ c

theorem deptFilter_eq_nil_of_not_mem_ordered (priority : List String)
    (roster : List StudentRecord) (c : String)
    (hc : c ∉ ordered_departments priority roster) :
    deptFilter c roster = [] := by
  rw [deptFilter, List.filter_eq_nil_iff]
  intro r hr
  simp only [decide_eq_true_eq]
  intro heq
  exact hc (heq ▸ mem_ordered_departments priority roster r hr)

theorem flatten_deptFilter_perm :
    ∀ (keys : List String) (l : List StudentRecord),
      keys.Nodup → (∀ r ∈ l, r.department ∈ keys) →
      ((keys.map (fun d => deptFilter d l)).flatten).Perm l := by
  intro keys
  induction keys with
  | nil =>
    intro l _ hcov
    have hl : l = [] := by
      cases l with
      | nil => rfl
      | cons r rs => exact absurd (hcov r (List.mem_cons_self _ _)) (by simp)
    subst hl
    simp
  | cons d ks ih =>
    intro l hnd hcov
    simp only [List.map_cons, List.flatten_cons]
    simp only [List.nodup_cons] at hnd
    have hcong : ∀ k ∈ ks, deptFilter k l
        = deptFilter k (l.filter (fun r => !(decide (r.department = d)))) := by
      intro k hk
      have hkd : k ≠ d := fun h => hnd.1 (h ▸ hk)
      unfold deptFilter
      rw [List.filter_filter]
      apply (List.filter_congr ?_).symm
      intro r _
      by_cases hr : r.department = k
      · simp [hr, hkd]
      · simp [hr]
    have hmapeq : ks.map (fun k => deptFilter k l)
        = ks.map (fun k =>
            deptFilter k (l.filter (fun r => !(decide (r.department = d))))) :=
      List.map_congr_left hcong
    have hcov' : ∀ r ∈ l.filter (fun r => !(decide (r.department = d))),
        r.department ∈ ks := by
      intro r hr
      have h1 := List.mem_filter.mp hr
      have h2 : r.department ≠ d := by simpa using h1.2
      rcases List.mem_cons.mp (hcov r h1.1) with h | h
      · exact absurd h h2
      · exact h
    have hih := ih (l.filter (fun r => !(decide (r.department = d)))) hnd.2 hcov'
    rw [hmapeq]
    exact List.Perm.trans (List.Perm.append_left _ hih)
      (List.filter_append_perm _ l)

theorem flatQueues_init_perm (priority : List String)
    (roster : List StudentRecord) (hp : priority.Nodup) :
    (flatQueues (initialize_department_queues priority roster)).Perm roster := by
  unfold flatQueues initialize_department_queues
  rw [List.map_map]
  exact flatten_deptFilter_perm (ordered_departments priority roster) roster
    (ordered_departments_nodup _ _ hp)
    (fun r hr => mem_ordered_departments _ _ r hr)

theorem perm_of_deptFilter_eq {l₁ l₂ : List StudentRecord}
    (h : ∀ c, deptFilter c l₁ = deptFilter c l₂) : l₁.Perm l₂ := by
  rw [List.perm_iff_count]
  intro a
  have hp : (fun r : StudentRecord => decide (r.department = a.department)) a
      = true := by simp
  have h1 : List.count a (deptFilter a.department l₁) = List.count a l₁ :=
    List.count_filter hp
  have h2 : List.count a (deptFilter a.department l₂) = List.count a l₂ :=
    List.count_filter hp
  rw [← h1, ← h2, h a.department]

/-! ### Group targets -/

theorem sum_map_range_add_ite (b m : Nat) :
    ∀ n : Nat, ((List.range n).map (fun i => b + if i < m then 1 else 0)).sum
      = n * b + min m n := by
  intro n
  induction n with
  | zero => simp
  | succ n ih =>
    rw [List.range_succ, List.map_append, List.sum_append, ih, Nat.succ_mul]
    by_cases h : n < m
    · simp only [List.map_cons, List.map_nil, List.sum_cons, List.sum_nil,
        if_pos h]
      rw [Nat.min_eq_right (by omega : n ≤ m),
        Nat.min_eq_right (by omega : n + 1 ≤ m)]
      omega
    · simp only [List.map_cons, List.map_nil, List.sum_cons, List.sum_nil,
        if_neg h]
      rw [Nat.min_eq_left (by omega : m ≤ n),
        Nat.min_eq_left (by omega : m ≤ n + 1)]
      omega

theorem group_targets_sum (total N : Nat) (h : N ≠ 0) :
    (group_targets total N).sum = total := by
  unfold group_targets
  rw [sum_map_range_add_ite]
  have hmod : total % N < N := Nat.mod_lt _ (Nat.pos_of_ne_zero h)
  have hmin : min (total % N) N = total % N := Nat.min_eq_left (le_of_lt hmod)
  have hdm := Nat.div_add_mod total N
  omega

theorem group_targets_length (total N : Nat) :
    (group_targets total N).length = N := by
  simp [group_targets]

theorem group_targets_getD (total N i : Nat) (hi : i < N) :
    (group_targets total N).getD i 0
      = total / N + if i < total % N then 1 else 0 := by
  unfold group_targets
  have hlen : i < ((List.range N).map
      (fun i => total / N + if i < total % N then 1 else 0)).length := by
    simp [hi]
  rw [List.getD_eq_getElem _ _ hlen, List.getElem_map, List.getElem_range]

theorem group_targets_mem (total N t : Nat) (ht : t ∈ group_targets total N) :
    t = total / N ∨ t = total / N + 1 := by
  unfold group_targets at ht
  rcases List.mem_map.mp ht with ⟨i, _, rfl⟩
  by_cases h : i < total % N
  · rw [if_pos h]; omega
  · rw [if_neg h]; omega

/-! ### Round-robin allocator: main helpers -/

theorem balanced_filter_eq (priority : List String) (roster : List StudentRecord)
    (N : Nat) (hp : priority.Nodup) (hN : N ≠ 0) (c : String) :
    deptFilter c ((rrLoop (group_targets roster.length N)
        (initialize_department_queues priority roster)).1.flatten)
      = deptFilter c roster := by
  have hwf := init_wf1 priority roster
  have hnd : ((initialize_department_queues priority roster).map Prod.fst).Nodup := by
    rw [init_keys]; exact ordered_departments_nodup _ _ hp
  have hflat : (flatQueues (initialize_department_queues priority roster)).length
      = roster.length :=
    (flatQueues_init_perm priority roster hp).length_eq
  have hsum : (group_targets roster.length N).sum
      ≤ (flatQueues (initialize_department_queues priority roster)).length := by
    rw [group_targets_sum _ _ hN, hflat]
  obtain ⟨_, hlen2⟩ := rrLoop_lengths _ _ hsum
  have hfin_all : ∀ p ∈ (rrLoop (group_targets roster.length N)
      (initialize_department_queues priority roster)).2, p.2 = [] := by
    apply all_nil_of_flatQueues_len_zero
    rw [hlen2, group_targets_sum _ _ hN, hflat]
    omega
  have hqfin : queueOf c (rrLoop (group_targets roster.length N)
      (initialize_department_queues priority roster)).2 = [] :=
    queueOf_eq_nil_of_all_nil c _ hfin_all
  have hmain := rrLoop_filter c (group_targets roster.length N)
    (initialize_department_queues priority roster) hwf hnd
  rw [hqfin, List.append_nil] at hmain
  rw [hmain, queueOf_init]
  by_cases hc : c ∈ ordered_departments priority roster
  · rw [if_pos hc]
  · rw [if_neg hc, deptFilter_eq_nil_of_not_mem_ordered _ _ _ hc]

theorem balanced_map_length (priority : List String) (roster : List StudentRecord)
    (N : Nat) (hp : priority.Nodup) (hN : N ≠ 0) :
    ((rrLoop (group_targets roster.length N)
        (initialize_department_queues priority roster)).1).map List.length
      = group_targets roster.length N := by
  have hflat : (flatQueues (initialize_department_queues priority roster)).length
      = roster.length :=
    (flatQueues_init_perm priority roster hp).length_eq
  have hsum : (group_targets roster.length N).sum
      ≤ (flatQueues (initialize_department_queues priority roster)).length := by
    rw [group_targets_sum _ _ hN, hflat]
  exact (rrLoop_lengths _ _ hsum).1

theorem getD_length_eq_map_getD (l : List (List StudentRecord)) (i : Nat)
    (hi : i < l.length) :
    (l.getD i []).length = (l.map List.length).getD i 0 := by
  rw [List.getD_eq_getElem _ _ hi]
  have hi' : i < (l.map List.length).length := by simpa using hi
  rw [List.getD_eq_getElem _ _ hi', List.getElem_map]

/-- **C2** Round-robin balance: for every roster, every de-duplicated
priority catalog and every `N ≥ 1`, `BalancedDistributionStrategy`
returns exactly `N` groups; group `i` (0-indexed) has size
`total / N + 1` when `i < total % N` and `total / N` otherwise (so earlier
groups receive the extra slot), and any two group sizes differ by at
most 1. -/
theorem claim_roundrobin_balance (priority : List String)
    (roster : List StudentRecord) (N : Nat)
    (hp : priority.Nodup) (hN : 1 ≤ N) :
    ∃ gs : List (List StudentRecord),
      balanced_create_groups priority roster N = .ok gs ∧
      gs.length = N ∧
      gs.map List.length = group_targets roster.length N ∧
      (∀ i, i < N → (gs.getD i []).length
        = roster.length / N + if i < roster.length % N then 1 else 0) ∧
      (∀ g₁ ∈ gs, ∀ g₂ ∈ gs, g₁.length ≤ g₂.length + 1) := by
  have hN0 : N ≠ 0 := by omega
  have hglen : (rrLoop (group_targets roster.length N)
      (initialize_department_queues priority roster)).1.length = N := by
    rw [rrLoop_count, group_targets_length]
  have hmap := balanced_map_length priority roster N hp hN0
  refine ⟨(rrLoop (group_targets roster.length N)
      (initialize_department_queues priority roster)).1, ?_, hglen, hmap, ?_, ?_⟩
  · unfold balanced_create_groups
    rw [if_neg hN0]
  · intro i hi
    rw [getD_length_eq_map_getD _ i (by rw [hglen]; exact hi), hmap]
    exact group_targets_getD roster.length N i hi
  · intro g₁ hg₁ g₂ hg₂
    have h1 : g₁.length ∈ group_targets roster.length N := by
      rw [← hmap]; exact List.mem_map_of_mem _ hg₁
    have h2 : g₂.length ∈ group_targets roster.length N := by
      rw [← hmap]; exact List.mem_map_of_mem _ hg₂
    rcases group_targets_mem _ _ _ h1 with h1 | h1 <;>
      rcases group_targets_mem _ _ _ h2 with h2 | h2 <;> omega

/-- Witness for `claim_roundrobin_balance`: three records of department `AA`
split into `N = 2` groups. -/
theorem claim_roundrobin_balance_witness :
    (["AA"] : List String).Nodup ∧ 1 ≤ 2 ∧
    (∃ gs : List (List StudentRecord),
      balanced_create_groups ["AA"]
          [mkRec "r1" "AA", mkRec "r2" "AA", mkRec "r3" "AA"] 2 = .ok gs ∧
      gs.length = 2 ∧
      gs.map List.length
        = group_targets
            ([mkRec "r1" "AA", mkRec "r2" "AA", mkRec "r3" "AA"] :
              List StudentRecord).length 2 ∧
      (∀ i, i < 2 → (gs.getD i []).length
        = ([mkRec "r1" "AA", mkRec "r2" "AA", mkRec "r3" "AA"] :
            List StudentRecord).length / 2 +
          if i < ([mkRec "r1" "AA", mkRec "r2" "AA", mkRec "r3" "AA"] :
              List StudentRecord).length % 2 then 1 else 0) ∧
      (∀ g₁ ∈ gs, ∀ g₂ ∈ gs, g₁.length ≤ g₂.length + 1)) :=
  ⟨by decide, by decide,
    claim_roundrobin_balance ["AA"]
      [mkRec "r1" "AA", mkRec "r2" "AA", mkRec "r3" "AA"] 2
      (by decide) (by decide)⟩

/-! ### Clustering allocator: carve and phase 1 -/

theorem carve_flatten (capacity : Nat) :
    ∀ students : List StudentRecord,
      (carve capacity students).1.flatten ++ (carve capacity students).2
        = students := by
  intro students
  induction students using carve.induct capacity with
  | case1 students h ih =>
    rw [carve]
    simp only [dif_pos h, List.flatten_cons, List.append_assoc, ih]
    exact List.take_append_drop capacity students
  | case2 students h =>
    rw [carve]
    simp [dif_neg h]

theorem carve_chunk_len (capacity : Nat) :
    ∀ students : List StudentRecord,
      ∀ g ∈ (carve capacity students).1, g.length = capacity := by
  intro students
  induction students using carve.induct capacity with
  | case1 students h ih =>
    rw [carve]
    simp only [dif_pos h]
    intro g hg
    rcases List.mem_cons.mp hg with hg | hg
    · subst hg
      rw [List.length_take]
      omega
    · exact ih g hg
  | case2 students h =>
    rw [carve]
    simp [dif_neg h]

theorem carve_rem_lt (capacity : Nat) (hpos : 0 < capacity) :
    ∀ students : List StudentRecord,
      (carve capacity students).2.length < capacity := by
  intro students
  induction students using carve.induct capacity with
  | case1 students h ih =>
    rw [carve]
    simp only [dif_pos h]
    exact ih
  | case2 students h =>
    rw [carve]
    simp only [dif_neg h]
    omega

theorem carve_chunk_mem (capacity : Nat) (students : List StudentRecord)
    (g : List StudentRecord) (hg : g ∈ (carve capacity students).1) :
    ∀ r ∈ g, r ∈ students := by
  intro r hr
  rw [← carve_flatten capacity students]
  exact List.mem_append_left _ (List.mem_flatten.mpr ⟨g, hg, hr⟩)

theorem carve_rem_mem (capacity : Nat) (students : List StudentRecord) :
    ∀ r ∈ (carve capacity students).2, r ∈ students := by
  intro r hr
  rw [← carve_flatten capacity students]
  exact List.mem_append_right _ hr

theorem mem_deptFilter_dept {c : String} {l : List StudentRecord}
    {r : StudentRecord} (hr : r ∈ deptFilter c l) : r.department = c := by
  have := (List.mem_filter.mp hr).2
  simpa using this

theorem deptFilter_eq_nil_of_pure {b : List StudentRecord} {d c : String}
    (hpure : ∀ r ∈ b, r.department = d) (hne : c ≠ d) :
    deptFilter c b = [] := by
  rw [deptFilter, List.filter_eq_nil_iff]
  intro r hr
  simp only [decide_eq_true_eq]
  intro heq
  exact hne (heq.symm.trans (hpure r hr))

theorem deptFilter_eq_self_of_pure {b : List StudentRecord} {d : String}
    (hpure : ∀ r ∈ b, r.department = d) :
    deptFilter d b = b := by
  rw [deptFilter, List.filter_eq_self]
  intro r hr
  simp [hpure r hr]

theorem phase1_chunks_pure (capacity : Nat) (roster : List StudentRecord) :
    ∀ deptOrder : List String,
      ∀ g ∈ (phase1 capacity deptOrder roster).1,
        ∃ d ∈ deptOrder, ∀ r ∈ g, r.department = d := by
  intro deptOrder
  induction deptOrder with
  | nil => intro g hg; cases hg
  | cons d ds ih =>
    intro g hg
    simp only [phase1] at hg
    rcases List.mem_append.mp hg with hg | hg
    · exact ⟨d, List.mem_cons_self _ _, fun r hr =>
        mem_deptFilter_dept (carve_chunk_mem _ _ g hg r hr)⟩
    · rcases ih g hg with ⟨d', hd', hpure⟩
      exact ⟨d', List.mem_cons_of_mem _ hd', hpure⟩

theorem phase1_blocks_pure (capacity : Nat) (roster : List StudentRecord) :
    ∀ deptOrder : List String,
      ∀ b ∈ (phase1 capacity deptOrder roster).2,
        ∃ d ∈ deptOrder, ∀ r ∈ b, r.department = d := by
  intro deptOrder
  induction deptOrder with
  | nil => intro b hb; cases hb
  | cons d ds ih =>
    intro b hb
    simp only [phase1] at hb
    rcases List.mem_append.mp hb with hb | hb
    · by_cases hemp : (carve capacity (deptFilter d roster)).2.isEmpty
      · rw [if_pos hemp] at hb
        cases hb
      · rw [if_neg hemp] at hb
        rcases List.mem_cons.mp hb with hb | hb
        · subst hb
          exact ⟨d, List.mem_cons_self _ _, fun r hr =>
            mem_deptFilter_dept (carve_rem_mem _ _ r hr)⟩
        · cases hb
    · rcases ih b hb with ⟨d', hd', hpure⟩
      exact ⟨d', List.mem_cons_of_mem _ hd', hpure⟩

theorem phase1_chunk_len (capacity : Nat) (roster : List StudentRecord) :
    ∀ deptOrder : List String,
      ∀ g ∈ (phase1 capacity deptOrder roster).1, g.length = capacity := by
  intro deptOrder
  induction deptOrder with
  | nil => intro g hg; cases hg
  | cons d ds ih =>
    intro g hg
    simp only [phase1] at hg
    rcases List.mem_append.mp hg with hg | hg
    · exact carve_chunk_len capacity _ g hg
    · exact ih g hg

theorem phase1_blocks_lt (capacity : Nat) (roster : List StudentRecord)
    (hpos : 0 < capacity) :
    ∀ deptOrder : List String,
      ∀ b ∈ (phase1 capacity deptOrder roster).2, b.length < capacity := by
  intro deptOrder
  induction deptOrder with
  | nil => intro b hb; cases hb
  | cons d ds ih =>
    intro b hb
    simp only [phase1] at hb
    rcases List.mem_append.mp hb with hb | hb
    · by_cases hemp : (carve capacity (deptFilter d roster)).2.isEmpty
      · rw [if_pos hemp] at hb
        cases hb
      · rw [if_neg hemp] at hb
        rcases List.mem_cons.mp hb with hb | hb
        · subst hb
          exact carve_rem_lt capacity hpos _
        · cases hb
    · exact ih b hb

theorem phase1_filter (capacity : Nat) (roster : List StudentRecord)
    (c : String) :
    ∀ deptOrder : List String, deptOrder.Nodup →
      deptFilter c (phase1 capacity deptOrder roster).1.flatten
          ++ deptFilter c (phase1 capacity deptOrder roster).2.flatten
        = if c ∈ deptOrder then deptFilter c roster else [] := by
  intro deptOrder
  induction deptOrder with
  | nil =>
    intro _
    simp [phase1, deptFilter]
  | cons d ds ih =>
    intro hnd
    simp only [List.nodup_cons] at hnd
    have hih := ih hnd.2
    simp only [phase1, List.flatten_append, deptFilter_append]
    by_cases hdc : c = d
    · subst hdc
      rw [if_pos (List.mem_cons_self _ _)]
      rw [if_neg hnd.1] at hih
      rcases List.append_eq_nil.mp hih with ⟨hB, hD⟩
      rw [hB, hD]
      have hchunks : deptFilter c (carve capacity (deptFilter c roster)).1.flatten
          = (carve capacity (deptFilter c roster)).1.flatten :=
        deptFilter_eq_self_of_pure fun r hr => by
          rcases List.mem_flatten.mp hr with ⟨g, hg, hrg⟩
          exact mem_deptFilter_dept (carve_chunk_mem _ _ g hg r hrg)
      have hrem : deptFilter c
          ((if (carve capacity (deptFilter c roster)).2.isEmpty then []
            else [(carve capacity (deptFilter c roster)).2]) :
              List (List StudentRecord)).flatten
          = (carve capacity (deptFilter c roster)).2 := by
        by_cases hemp : (carve capacity (deptFilter c roster)).2.isEmpty
        · rw [if_pos hemp]
          have : (carve capacity (deptFilter c roster)).2 = [] :=
            List.isEmpty_iff.mp hemp
          rw [this]
          rfl
        · rw [if_neg hemp]
          simp only [List.flatten_cons, List.flatten_nil, List.append_nil]
          exact deptFilter_eq_self_of_pure fun r hr =>
            mem_deptFilter_dept (carve_rem_mem _ _ r hr)
      rw [hchunks, hrem, List.append_nil, List.append_nil]
      exact carve_flatten capacity (deptFilter c roster)
    · have hchunks : deptFilter c (carve capacity (deptFilter d roster)).1.flatten
          = [] :=
        deptFilter_eq_nil_of_pure
          (fun r hr => by
            rcases List.mem_flatten.mp hr with ⟨g, hg, hrg⟩
            exact mem_deptFilter_dept (carve_chunk_mem _ _ g hg r hrg)) hdc
      have hrem : deptFilter c
          ((if (carve capacity (deptFilter d roster)).2.isEmpty then []
            else [(carve capacity (deptFilter d roster)).2]) :
              List (List StudentRecord)).flatten
          = [] := by
        by_cases hemp : (carve capacity (deptFilter d roster)).2.isEmpty
        · rw [if_pos hemp]; rfl
        · rw [if_neg hemp]
          simp only [List.flatten_cons, List.flatten_nil, List.append_nil]
          exact deptFilter_eq_nil_of_pure
            (fun r hr => mem_deptFilter_dept (carve_rem_mem _ _ r hr)) hdc
      rw [hchunks, hrem, List.nil_append, List.nil_append, hih]
      by_cases hc : c ∈ ds
      · rw [if_pos hc, if_pos (List.mem_cons_of_mem _ hc)]
      · rw [if_neg hc, if_neg ?_]
        intro hmem
        rcases List.mem_cons.mp hmem with h | h
        · exact hdc h
        · exact hc h

theorem phase1_blocks_countP (capacity : Nat) (roster : List StudentRecord)
    (c : String) :
    ∀ deptOrder : List String, deptOrder.Nodup →
      (phase1 capacity deptOrder roster).2.countP
        (fun b => !(deptFilter c b).isEmpty) ≤ 1 := by
  intro deptOrder
  induction deptOrder with
  | nil => intro _; simp [phase1]
  | cons d ds ih =>
    intro hnd
    simp only [List.nodup_cons] at hnd
    simp only [phase1, List.countP_append]
    by_cases hdc : c = d
    · subst hdc
      have htail : (phase1 capacity ds roster).2.countP
          (fun b => !(deptFilter c b).isEmpty) = 0 := by
        rw [List.countP_eq_zero]
        intro b hb
        rcases phase1_blocks_pure capacity roster ds b hb with ⟨d', hd', hpure⟩
        have hne : c ≠ d' := fun h => hnd.1 (h ▸ hd')
        rw [deptFilter_eq_nil_of_pure hpure hne]
        simp
      rw [htail]
      have hhead : ((if (carve capacity (deptFilter c roster)).2.isEmpty then []
          else [(carve capacity (deptFilter c roster)).2]) :
            List (List StudentRecord)).countP
          (fun b => !(deptFilter c b).isEmpty) ≤ 1 := by
        by_cases hemp : (carve capacity (deptFilter c roster)).2.isEmpty
        · rw [if_pos hemp]; simp
        · rw [if_neg hemp]
          exact le_trans (List.countP_le_length _) (by simp)
      omega
    · have hhead : ((if (carve capacity (deptFilter d roster)).2.isEmpty then []
          else [(carve capacity (deptFilter d roster)).2]) :
            List (List StudentRecord)).countP
          (fun b => !(deptFilter c b).isEmpty) = 0 := by
        by_cases hemp : (carve capacity (deptFilter d roster)).2.isEmpty
        · rw [if_pos hemp]; rfl
        · rw [if_neg hemp]
          rw [List.countP_eq_zero]
          intro b hb
          rcases List.mem_cons.mp hb with hb | hb
          · subst hb
            rw [deptFilter_eq_nil_of_pure
              (fun r hr => mem_deptFilter_dept (carve_rem_mem _ _ r hr)) hdc]
            simp
          · cases hb
      rw [hhead]
      have := ih hnd.2
      omega

/-! ### Clustering allocator: phase 2 -/

theorem fillGroup_flatten (space : Nat) (current : List StudentRecord)
    (q : List (List StudentRecord)) :
    (fillGroup space current q).1 ++ (fillGroup space current q).2.flatten
      = current ++ q.flatten := by
  induction q generalizing space current with
  | nil => simp [fillGroup]
  | cons b rest ih =>
    simp only [fillGroup]
    by_cases h0 : space = 0
    · rw [if_pos h0]
    · rw [if_neg h0]
      by_cases hb : b.length ≤ space
      · rw [if_pos hb, ih]
        simp [List.flatten_cons, List.append_assoc]
      · rw [if_neg hb]
        simp only [List.flatten_cons, List.append_assoc, ← List.append_assoc,
          List.take_append_drop]
        simp [List.append_assoc]

theorem fillGroup_group_le (space : Nat) (current : List StudentRecord)
    (q : List (List StudentRecord)) :
    (fillGroup space current q).1.length ≤ current.length + space := by
  induction q generalizing space current with
  | nil => simp [fillGroup]
  | cons b rest ih =>
    simp only [fillGroup]
    by_cases h0 : space = 0
    · rw [if_pos h0]
      show current.length ≤ current.length + space
      omega
    · rw [if_neg h0]
      by_cases hb : b.length ≤ space
      · rw [if_pos hb]
        have := ih (space - b.length) (current ++ b)
        simp only [List.length_append] at this
        omega
      · rw [if_neg hb]
        simp only [List.length_append, List.length_take]
        omega

theorem fillGroup_blocks_le (cap : Nat) :
    ∀ (q : List (List StudentRecord)) (space : Nat)
      (current : List StudentRecord),
      (∀ b ∈ q, b.length ≤ cap) →
      ∀ b ∈ (fillGroup space current q).2, b.length ≤ cap := by
  intro q
  induction q with
  | nil => intro space current _ b hb; cases hb
  | cons bb rest ih =>
    intro space current hq b hb
    simp only [fillGroup] at hb
    by_cases h0 : space = 0
    · rw [if_pos h0] at hb
      exact hq b hb
    · rw [if_neg h0] at hb
      by_cases hbb : bb.length ≤ space
      · rw [if_pos hbb] at hb
        exact ih _ _ (fun x hx => hq x (List.mem_cons_of_mem _ hx)) b hb
      · rw [if_neg hbb] at hb
        rcases List.mem_cons.mp hb with hb | hb
        · subst hb
          have hlen : (bb.drop space).length = bb.length - space := by
            simp
          have := hq bb (List.mem_cons_self _ _)
          omega
        · exact hq b (List.mem_cons_of_mem _ hb)

theorem phase2_flatten (capacity : Nat) :
    ∀ q : List (List StudentRecord),
      (phase2 capacity q).flatten = q.flatten := by
  intro q
  induction q using phase2.induct capacity with
  | case1 => simp [phase2]
  | case2 b rest ih =>
    rw [phase2]
    simp only [List.flatten_cons, ih]
    exact fillGroup_flatten (capacity - b.length) b rest

theorem phase2_group_le (capacity : Nat) :
    ∀ q : List (List StudentRecord),
      (∀ b ∈ q, b.length ≤ capacity) →
      ∀ g ∈ phase2 capacity q, g.length ≤ capacity := by
  intro q
  induction q using phase2.induct capacity with
  | case1 =>
    intro _ g hg
    rw [phase2] at hg
    cases hg
  | case2 b rest ih =>
    intro hq g hg
    rw [phase2] at hg
    rcases List.mem_cons.mp hg with hg | hg
    · subst hg
      have h1 := fillGroup_group_le (capacity - b.length) b rest
      have h2 := hq b (List.mem_cons_self _ _)
      omega
    · refine ih ?_ g hg
      exact fillGroup_blocks_le capacity rest (capacity - b.length) b
        (fun x hx => hq x (List.mem_cons_of_mem _ hx))

theorem flatten_filter_eq_of_perm (c : String) :
    ∀ {bs bs' : List (List StudentRecord)}, bs.Perm bs' →
      bs.countP (fun b => !(deptFilter c b).isEmpty) ≤ 1 →
      deptFilter c bs.flatten = deptFilter c bs'.flatten := by
  intro bs bs' hperm
  induction hperm with
  | nil => intro _; rfl
  | cons x h ih =>
    intro hcount
    simp only [List.flatten_cons, deptFilter_append]
    rw [ih ?_]
    rw [List.countP_cons] at hcount
    omega
  | swap x y l =>
    intro hcount
    have hxy : deptFilter c x = [] ∨ deptFilter c y = [] := by
      by_contra hcontra
      push_neg at hcontra
      have hx : (!(deptFilter c x).isEmpty) = true := by
        simpa using hcontra.1
      have hy : (!(deptFilter c y).isEmpty) = true := by
        simpa using hcontra.2
      rw [List.countP_cons, List.countP_cons] at hcount
      rw [if_pos hx, if_pos hy] at hcount
      omega
    simp only [List.flatten_cons, deptFilter_append, ← List.append_assoc]
    rcases hxy with hxy | hxy <;> rw [hxy] <;> simp
  | trans h₁ h₂ ih₁ ih₂ =>
    intro hcount
    rw [ih₁ hcount, ih₂ ((h₁.countP_eq _).symm ▸ hcount)]

/-! ### Clustering allocator: main helpers -/

theorem phase1_blocks_ne_nil (capacity : Nat) (roster : List StudentRecord) :
    ∀ deptOrder : List String,
      ∀ b ∈ (phase1 capacity deptOrder roster).2, b ≠ [] := by
  intro deptOrder
  induction deptOrder with
  | nil => intro b hb; cases hb
  | cons d ds ih =>
    intro b hb
    simp only [phase1] at hb
    rcases List.mem_append.mp hb with hb | hb
    · by_cases hemp : (carve capacity (deptFilter d roster)).2.isEmpty
      · rw [if_pos hemp] at hb
        cases hb
      · rw [if_neg hemp] at hb
        rcases List.mem_cons.mp hb with hb | hb
        · subst hb
          intro hnil
          rw [hnil] at hemp
          exact hemp rfl
        · cases hb
    · exact ih b hb

theorem phase1_blocks_sub (capacity : Nat) (roster : List StudentRecord) :
    ∀ deptOrder : List String,
      ∀ b ∈ (phase1 capacity deptOrder roster).2, ∀ r ∈ b, r ∈ roster := by
  intro deptOrder
  induction deptOrder with
  | nil => intro b hb; cases hb
  | cons d ds ih =>
    intro b hb
    simp only [phase1] at hb
    rcases List.mem_append.mp hb with hb | hb
    · by_cases hemp : (carve capacity (deptFilter d roster)).2.isEmpty
      · rw [if_pos hemp] at hb
        cases hb
      · rw [if_neg hemp] at hb
        rcases List.mem_cons.mp hb with hb | hb
        · subst hb
          intro r hr
          exact (List.mem_filter.mp (carve_rem_mem _ _ r hr)).1
        · cases hb
    · exact ih b hb

theorem cluster_core_filter (capacity : Nat) (deptOrder : List String)
    (roster : List StudentRecord) (hnd : deptOrder.Nodup)
    (hcov : ∀ r ∈ roster, r.department ∈ deptOrder) (c : String) :
    deptFilter c ((phase1 capacity deptOrder roster).1
        ++ phase2 capacity ((phase1 capacity deptOrder roster).2.mergeSort
            (fun a b => b.length ≤ a.length))).flatten
      = deptFilter c roster := by
  rw [List.flatten_append, deptFilter_append, phase2_flatten]
  have hperm : ((phase1 capacity deptOrder roster).2.mergeSort
      (fun a b => b.length ≤ a.length)).Perm
        (phase1 capacity deptOrder roster).2 :=
    List.mergeSort_perm _ _
  have hcnt : ((phase1 capacity deptOrder roster).2.mergeSort
      (fun a b => b.length ≤ a.length)).countP
        (fun b => !(deptFilter c b).isEmpty) ≤ 1 := by
    rw [hperm.countP_eq]
    exact phase1_blocks_countP capacity roster c deptOrder hnd
  rw [flatten_filter_eq_of_perm c hperm hcnt]
  rw [phase1_filter capacity roster c deptOrder hnd]
  by_cases hc : c ∈ deptOrder
  · rw [if_pos hc]
  · rw [if_neg hc]
    symm
    rw [deptFilter, List.filter_eq_nil_iff]
    intro r hr
    simp only [decide_eq_true_eq]
    intro heq
    exact hc (heq ▸ hcov r hr)

theorem emitted_filter_eq (deptOrder : List String) (roster : List StudentRecord)
    (N : Nat) (hnd : deptOrder.Nodup)
    (hcov : ∀ r ∈ roster, r.department ∈ deptOrder) (c : String) :
    deptFilter c (emitted_groups deptOrder roster N).flatten
      = deptFilter c roster :=
  cluster_core_filter ((roster.length + N - 1) / N) deptOrder roster hnd hcov c

theorem emitted_le_capacity (deptOrder : List String)
    (roster : List StudentRecord) (N : Nat) (hN : N ≠ 0) :
    ∀ g ∈ emitted_groups deptOrder roster N,
      g.length ≤ (roster.length + N - 1) / N := by
  intro g hg
  unfold emitted_groups at hg
  rcases List.mem_append.mp hg with hg | hg
  · rw [phase1_chunk_len _ roster deptOrder g hg]
  · refine phase2_group_le _ _ ?_ g hg
    intro b hb
    have hb' : b ∈ (phase1 ((roster.length + N - 1) / N) deptOrder roster).2 :=
      (List.mergeSort_perm _ _).mem_iff.mp hb
    by_cases hpos : 0 < (roster.length + N - 1) / N
    · exact le_of_lt (phase1_blocks_lt _ roster hpos deptOrder b hb')
    · exfalso
      have hcap0 : (roster.length + N - 1) / N = 0 :=
        Nat.eq_zero_of_not_pos hpos
      have hlt : roster.length + N - 1 < N :=
        (Nat.div_eq_zero_iff (Nat.pos_of_ne_zero hN)).mp hcap0
      have htot : roster.length = 0 := by omega
      have hroster : roster = [] := List.eq_nil_of_length_eq_zero htot
      subst hroster
      have hne := phase1_blocks_ne_nil _ [] deptOrder b hb'
      cases b with
      | nil => exact hne rfl
      | cons r rs =>
        exact absurd (phase1_blocks_sub _ [] deptOrder _ hb' r
          (List.mem_cons_self _ _)) (by simp)

theorem clustering_ok_elim (deptOrder : List String)
    (roster : List StudentRecord) (N : Nat)
    (gs : List (List StudentRecord)) (hN : N ≠ 0)
    (h : clustering_create_groups deptOrder roster N = .ok gs) :
    (emitted_groups deptOrder roster N).length ≤ N ∧
      gs = emitted_groups deptOrder roster N
        ++ List.replicate (N - (emitted_groups deptOrder roster N).length) [] := by
  unfold clustering_create_groups at h
  rw [if_neg hN] at h
  by_cases hlen : N < (emitted_groups deptOrder roster N).length
  · rw [if_pos hlen] at h
    cases h
  · rw [if_neg hlen] at h
    exact ⟨by omega, (Except.ok.inj h).symm⟩

theorem clustering_error_iff (deptOrder : List String)
    (roster : List StudentRecord) (N : Nat) (hN : N ≠ 0) :
    clustering_create_groups deptOrder roster N
        = .error (.tooManyGroups (emitted_groups deptOrder roster N).length)
      ↔ N < (emitted_groups deptOrder roster N).length := by
  unfold clustering_create_groups
  rw [if_neg hN]
  by_cases hlen : N < (emitted_groups deptOrder roster N).length
  · rw [if_pos hlen]
    simp [hlen]
  · rw [if_neg hlen]
    simp [hlen]

theorem clustering_ok_of_le (deptOrder : List String)
    (roster : List StudentRecord) (N : Nat) (hN : N ≠ 0)
    (hle : (emitted_groups deptOrder roster N).length ≤ N) :
    clustering_create_groups deptOrder roster N
      = .ok (emitted_groups deptOrder roster N
          ++ List.replicate (N - (emitted_groups deptOrder roster N).length) []) := by
  unfold clustering_create_groups
  rw [if_neg hN, if_neg (by omega)]

/-! ### Claim theorems: conservation, capacity, counts -/

theorem replicate_nil_flatten (n : Nat) :
    (List.replicate n ([] : List StudentRecord)).flatten = [] := by
  rw [List.flatten_eq_nil_iff]
  intro l hl
  exact List.eq_of_mem_replicate hl

/-- **C1** Conservation: for every roster and every `N ≥ 1`, the partition
returned by `BalancedDistributionStrategy.create_groups` conserves the
roster (the concatenation of its groups is a permutation of the roster, so
the multiset union equals the input multiset), and whenever
`DepartmentClusteringStrategy.create_groups` returns without error its
partition conserves the roster as well.  The clustering statement holds for
every admissible category order — distinct categories covering the roster —
hence in particular for the library-determined order of the source. -/
theorem claim_conservation :
    (∀ (priority : List String) (roster : List StudentRecord) (N : Nat),
      priority.Nodup → 1 ≤ N →
      ∃ gs, balanced_create_groups priority roster N = .ok gs ∧
        gs.flatten.Perm roster) ∧
    (∀ (deptOrder : List String) (roster : List StudentRecord) (N : Nat),
      deptOrder.Nodup → (∀ r ∈ roster, r.department ∈ deptOrder) → 1 ≤ N →
      ∀ gs, clustering_create_groups deptOrder roster N = .ok gs →
        gs.flatten.Perm roster) := by
  constructor
  · intro priority roster N hp hN
    have hN0 : N ≠ 0 := by omega
    refine ⟨(rrLoop (group_targets roster.length N)
        (initialize_department_queues priority roster)).1, ?_, ?_⟩
    · unfold balanced_create_groups
      rw [if_neg hN0]
    · exact perm_of_deptFilter_eq fun c =>
        balanced_filter_eq priority roster N hp hN0 c
  · intro deptOrder roster N hnd hcov hN gs hgs
    have hN0 : N ≠ 0 := by omega
    obtain ⟨hle, rfl⟩ := clustering_ok_elim deptOrder roster N gs hN0 hgs
    apply perm_of_deptFilter_eq
    intro c
    rw [List.flatten_append, replicate_nil_flatten, List.append_nil]
    exact emitted_filter_eq deptOrder roster N hnd hcov c

/-- Witness for `claim_conservation`: a one-record roster with `N = 1` for
both allocators. -/
theorem claim_conservation_witness :
    (["AA"] : List String).Nodup ∧ 1 ≤ 1 ∧
    (∃ gs, balanced_create_groups ["AA"] [mkRec "a" "AA"] 1 = .ok gs ∧
      gs.flatten.Perm [mkRec "a" "AA"]) ∧
    (∀ r ∈ ([mkRec "a" "AA"] : List StudentRecord),
      r.department ∈ (["AA"] : List String)) ∧
    ([[mkRec "a" "AA"]] : List (List StudentRecord)).flatten.Perm
      [mkRec "a" "AA"] := by
  refine ⟨by decide, by decide, ?_, by decide, ?_⟩
  · exact claim_conservation.1 ["AA"] [mkRec "a" "AA"] 1 (by decide) (by decide)
  · exact claim_conservation.2 ["AA"] [mkRec "a" "AA"] 1 (by decide)
      (by decide) (by decide) [[mkRec "a" "AA"]]
      (by simp [clustering_create_groups, emitted_groups, phase1, carve,
        phase2, fillGroup, deptFilter, mkRec])

/-- **C3** Capacity bound: for every roster, every category order, every
`N ≥ 1` and every partition the clustering allocator returns, no group
exceeds `ceil(total / N) = (total + N - 1) / N` records. -/
theorem claim_capacity_bound (deptOrder : List String)
    (roster : List StudentRecord) (N : Nat)
    (gs : List (List StudentRecord)) (hN : 1 ≤ N)
    (hgs : clustering_create_groups deptOrder roster N = .ok gs) :
    ∀ g ∈ gs, g.length ≤ (roster.length + N - 1) / N := by
  have hN0 : N ≠ 0 := by omega
  obtain ⟨hle, rfl⟩ := clustering_ok_elim deptOrder roster N gs hN0 hgs
  intro g hg
  rcases List.mem_append.mp hg with hg | hg
  · exact emitted_le_capacity deptOrder roster N hN0 g hg
  · rw [List.eq_of_mem_replicate hg]
    exact Nat.zero_le _

/-- Witness for `claim_capacity_bound`: two records of distinct departments,
`N = 1`, capacity `2`. -/
theorem claim_capacity_bound_witness :
    1 ≤ 1 ∧
    (∀ g ∈ ([[mkRec "a" "AA", mkRec "b" "BB"]] : List (List StudentRecord)),
      g.length ≤ (([mkRec "a" "AA", mkRec "b" "BB"] :
        List StudentRecord).length + 1 - 1) / 1) := by
  refine ⟨by decide, ?_⟩
  exact claim_capacity_bound ["AA", "BB"] [mkRec "a" "AA", mkRec "b" "BB"] 1
    [[mkRec "a" "AA", mkRec "b" "BB"]] (by decide)
    (by simp [clustering_create_groups, emitted_groups, phase1, carve,
      phase2, fillGroup, deptFilter, mkRec, List.mergeSort])

/-- Counterexample to **C6**: called with `N = 0`, neither allocator rejects
the invalid group count; both run straight into the division by zero
(`total_students // self.num_groups` resp. `math.ceil(total / N)`), the
very failure mode the claim says validation prevents. -/
theorem claim_n_validation_cex :
    balanced_create_groups branch_priority [mkRec "2511AI57" "AI"] 0
        = .error .zeroDivision ∧
    clustering_create_groups ["AI"] [mkRec "2511AI57" "AI"] 0
        = .error .zeroDivision :=
  ⟨rfl, rfl⟩

/-- **C6 (amended)**: neither allocator validates `N ≥ 1`; for `N = 0` both
fail with the uncontrolled `ZeroDivisionError` raised during target/capacity
computation (the surrounding UI restricts `N` to `[2, 50]`, so the engine
itself never checks). -/
theorem claim_n_validation_amended :
    ∀ (priority deptOrder : List String) (roster : List StudentRecord),
      balanced_create_groups priority roster 0 = .error .zeroDivision ∧
      clustering_create_groups deptOrder roster 0 = .error .zeroDivision := by
  intro priority deptOrder roster
  exact ⟨rfl, rfl⟩

/-- **C4** Group count and overflow handling: for every `N ≥ 1` the
round-robin allocator returns exactly `N` groups; the clustering allocator
returns the fatal configuration error — and hence no partial partition —
exactly when phases 1 and 2 emitted more than `N` groups, returns the
emitted groups padded with empty groups up to `N` otherwise, and every
partition it returns has exactly `N` groups. -/
theorem claim_group_count :
    (∀ (priority : List String) (roster : List StudentRecord) (N : Nat),
      1 ≤ N →
      ∃ gs, balanced_create_groups priority roster N = .ok gs ∧
        gs.length = N) ∧
    (∀ (deptOrder : List String) (roster : List StudentRecord) (N : Nat),
      1 ≤ N →
      (clustering_create_groups deptOrder roster N
          = .error (.tooManyGroups (emitted_groups deptOrder roster N).length)
        ↔ N < (emitted_groups deptOrder roster N).length) ∧
      ((emitted_groups deptOrder roster N).length ≤ N →
        clustering_create_groups deptOrder roster N
          = .ok (emitted_groups deptOrder roster N
              ++ List.replicate
                (N - (emitted_groups deptOrder roster N).length) [])) ∧
      (∀ gs, clustering_create_groups deptOrder roster N = .ok gs →
        gs.length = N)) := by
  constructor
  · intro priority roster N hN
    have hN0 : N ≠ 0 := by omega
    refine ⟨(rrLoop (group_targets roster.length N)
        (initialize_department_queues priority roster)).1, ?_, ?_⟩
    · unfold balanced_create_groups
      rw [if_neg hN0]
    · rw [rrLoop_count, group_targets_length]
  · intro deptOrder roster N hN
    have hN0 : N ≠ 0 := by omega
    refine ⟨clustering_error_iff deptOrder roster N hN0,
      fun hle => clustering_ok_of_le deptOrder roster N hN0 hle, ?_⟩
    intro gs hgs
    obtain ⟨hle, rfl⟩ := clustering_ok_elim deptOrder roster N gs hN0 hgs
    rw [List.length_append, List.length_replicate]
    omega

/-- Witness for `claim_group_count` at a one-record roster with `N = 2`. -/
theorem claim_group_count_witness :
    1 ≤ 2 ∧
    (∃ gs, balanced_create_groups ["AA"] [mkRec "a" "AA"] 2 = .ok gs ∧
      gs.length = 2) ∧
    ((clustering_create_groups ["AA"] [mkRec "a" "AA"] 2
        = .error (.tooManyGroups
            (emitted_groups ["AA"] [mkRec "a" "AA"] 2).length)
      ↔ 2 < (emitted_groups ["AA"] [mkRec "a" "AA"] 2).length) ∧
    ((emitted_groups ["AA"] [mkRec "a" "AA"] 2).length ≤ 2 →
      clustering_create_groups ["AA"] [mkRec "a" "AA"] 2
        = .ok (emitted_groups ["AA"] [mkRec "a" "AA"] 2
            ++ List.replicate
              (2 - (emitted_groups ["AA"] [mkRec "a" "AA"] 2).length) [])) ∧
    (∀ gs, clustering_create_groups ["AA"] [mkRec "a" "AA"] 2 = .ok gs →
      gs.length = 2)) :=
  ⟨by decide,
    claim_group_count.1 ["AA"] [mkRec "a" "AA"] 2 (by decide),
    claim_group_count.2 ["AA"] [mkRec "a" "AA"] 2 (by decide)⟩

/-- **C10** Within-category order preservation: for both allocators, any
returned partition read in group-index order and restricted to one category
`c` is exactly the roster's category-`c` subsequence, in original order
(stated as equality of the `deptFilter` lists, which is order-exact). -/
theorem claim_order_preservation :
    (∀ (priority : List String) (roster : List StudentRecord) (N : Nat)
        (c : String), priority.Nodup → 1 ≤ N →
      ∀ gs, balanced_create_groups priority roster N = .ok gs →
        deptFilter c gs.flatten = deptFilter c roster) ∧
    (∀ (deptOrder : List String) (roster : List StudentRecord) (N : Nat)
        (c : String), deptOrder.Nodup →
        (∀ r ∈ roster, r.department ∈ deptOrder) → 1 ≤ N →
      ∀ gs, clustering_create_groups deptOrder roster N = .ok gs →
        deptFilter c gs.flatten = deptFilter c roster) := by
  constructor
  · intro priority roster N c hp hN gs hgs
    have hN0 : N ≠ 0 := by omega
    have hgs' : gs = (rrLoop (group_targets roster.length N)
        (initialize_department_queues priority roster)).1 := by
      unfold balanced_create_groups at hgs
      rw [if_neg hN0] at hgs
      exact (Except.ok.inj hgs).symm
    rw [hgs']
    exact balanced_filter_eq priority roster N hp hN0 c
  · intro deptOrder roster N c hnd hcov hN gs hgs
    have hN0 : N ≠ 0 := by omega
    obtain ⟨hle, rfl⟩ := clustering_ok_elim deptOrder roster N gs hN0 hgs
    rw [List.flatten_append, replicate_nil_flatten, List.append_nil]
    exact emitted_filter_eq deptOrder roster N hnd hcov c

/-- Witness for `claim_order_preservation`: roster `[a1 AA, b1 BB, a2 AA]`,
`N = 2`, category `AA`.  The round-robin partition is `[[a1, b1], [a2]]` and
the clustering partition is `[[a1, a2], [b1]]`; in both, category `AA` reads
back as `[a1, a2]`. -/
theorem claim_order_preservation_witness :
    (["AA", "BB"] : List String).Nodup ∧ 1 ≤ 2 ∧
    deptFilter "AA"
        ([[mkRec "a1" "AA", mkRec "b1" "BB"], [mkRec "a2" "AA"]] :
          List (List StudentRecord)).flatten
      = deptFilter "AA" [mkRec "a1" "AA", mkRec "b1" "BB", mkRec "a2" "AA"] ∧
    deptFilter "AA"
        ([[mkRec "a1" "AA", mkRec "a2" "AA"], [mkRec "b1" "BB"]] :
          List (List StudentRecord)).flatten
      = deptFilter "AA" [mkRec "a1" "AA", mkRec "b1" "BB", mkRec "a2" "AA"] := by
  refine ⟨by decide, by decide, ?_, ?_⟩
  · exact claim_order_preservation.1 ["AA", "BB"]
      [mkRec "a1" "AA", mkRec "b1" "BB", mkRec "a2" "AA"] 2 "AA"
      (by decide) (by decide)
      [[mkRec "a1" "AA", mkRec "b1" "BB"], [mkRec "a2" "AA"]] (by rfl)
  · exact claim_order_preservation.2 ["AA", "BB"]
      [mkRec "a1" "AA", mkRec "b1" "BB", mkRec "a2" "AA"] 2 "AA"
      (by decide) (by decide) (by decide)
      [[mkRec "a1" "AA", mkRec "a2" "AA"], [mkRec "b1" "BB"]]
      (by simp [clustering_create_groups, emitted_groups, phase1, carve,
        phase2, fillGroup, deptFilter, mkRec, List.mergeSort])

/-! ### Statistics -/

theorem statsRow_eq (depts : List String) (group : List StudentRecord) :
    statsRow depts group
      = (depts.map (fun d => countDept d group), group.length) := by
  unfold statsRow
  by_cases h : group.isEmpty
  · rw [if_pos h]
    have hg : group = [] := List.isEmpty_iff.mp h
    subst hg
    simp [countDept, deptFilter]
  · rw [if_neg h]

theorem countDept_append (d : String) (l₁ l₂ : List StudentRecord) :
    countDept d (l₁ ++ l₂) = countDept d l₁ + countDept d l₂ := by
  simp [countDept, deptFilter_append]

theorem sum_countDept (g : List StudentRecord) (depts : List String)
    (hnd : depts.Nodup) (hcov : ∀ r ∈ g, r.department ∈ depts) :
    (depts.map (fun d => countDept d g)).sum = g.length := by
  have hperm := flatten_deptFilter_perm depts g hnd hcov
  have hlen := hperm.length_eq
  rw [List.length_flatten, List.map_map] at hlen
  exact hlen

theorem sum_over_groups_countDept (d : String) :
    ∀ groups : List (List StudentRecord),
      (groups.map (fun g => countDept d g)).sum = countDept d groups.flatten := by
  intro groups
  induction groups with
  | nil => simp [countDept, deptFilter]
  | cons g gs ih =>
    simp only [List.map_cons, List.sum_cons, List.flatten_cons,
      countDept_append, ih]

theorem countDept_perm {l₁ l₂ : List StudentRecord} (h : l₁.Perm l₂)
    (d : String) : countDept d l₁ = countDept d l₂ := by
  unfold countDept deptFilter
  rw [← List.countP_eq_length_filter, ← List.countP_eq_length_filter]
  exact h.countP_eq _

theorem sorted_departments_nodup (groups : List (List StudentRecord)) :
    (sorted_departments groups).Nodup := by
  unfold sorted_departments
  exact ((List.mergeSort_perm _ _).nodup_iff).mpr (List.nodup_dedup _)

theorem mem_sorted_departments (groups : List (List StudentRecord))
    (d : String) :
    d ∈ sorted_departments groups
      ↔ ∃ r ∈ groups.flatten, r.department = d := by
  unfold sorted_departments
  rw [List.mem_mergeSort, List.mem_dedup, List.mem_map]

theorem sorted_departments_sorted (groups : List (List StudentRecord)) :
    (sorted_departments groups).Pairwise (fun a b : String => a ≤ b) := by
  unfold sorted_departments
  have h := @List.sorted_mergeSort String
    (fun a b : String => decide (a ≤ b))
    (fun a b c hab hbc => by
      simp only [decide_eq_true_eq] at hab hbc ⊢
      exact le_trans hab hbc)
    (fun a b => by
      rcases le_total a b with h | h <;> simp [h])
    ((groups.flatten.map (·.department)).dedup)
  refine h.imp ?_
  intro a b hab
  simpa using hab

theorem map_range_getD (l : List (List StudentRecord)) (f : List StudentRecord → Nat) :
    (List.range l.length).map (fun i => f (l.getD i [])) = l.map f := by
  apply List.ext_getElem
  · simp
  · intro i h1 h2
    simp only [List.getElem_map, List.getElem_range]
    congr 1
    have hi : i < l.length := by simpa using h2
    rw [List.getD_eq_getElem _ _ hi]

/-- **C8** Statistics consistency: for a table built from a partition of
`total_groups` groups whose records form the roster, there is one row per
group; the columns are the sorted duplicate-free department list
(characterized by membership) plus the `Total_Students` column; every row
carries one explicitly populated cell per department column; each row's
cells sum to its total cell, which equals the group's size; and each
department column sums over all rows to that department's count in the
input roster. -/
theorem claim_statistics_consistency (groups : List (List StudentRecord))
    (roster : List StudentRecord) (total_groups : Nat)
    (hlen : groups.length = total_groups)
    (hperm : groups.flatten.Perm roster) :
    (generate_statistics groups total_groups).2.length = total_groups ∧
    (generate_statistics groups total_groups).1
      = sorted_departments groups ++ ["Total_Students"] ∧
    (sorted_departments groups).Nodup ∧
    (sorted_departments groups).Pairwise (fun a b : String => a ≤ b) ∧
    (∀ d : String, (d ∈ sorted_departments groups
      ↔ ∃ r ∈ groups.flatten, r.department = d)) ∧
    (∀ row ∈ (generate_statistics groups total_groups).2,
      row.1.length = (sorted_departments groups).length) ∧
    (∀ i, i < total_groups →
      ((generate_statistics groups total_groups).2.getD i ([], 0)).1.sum
          = ((generate_statistics groups total_groups).2.getD i ([], 0)).2 ∧
      ((generate_statistics groups total_groups).2.getD i ([], 0)).2
          = (groups.getD i []).length) ∧
    (∀ j, j < (sorted_departments groups).length →
      ((generate_statistics groups total_groups).2.map
          (fun row => row.1.getD j 0)).sum
        = countDept ((sorted_departments groups).getD j "") roster) := by
  have hrow_i : ∀ i, i < total_groups →
      (generate_statistics groups total_groups).2.getD i ([], 0)
        = statsRow (sorted_departments groups) (groups.getD i []) := by
    intro i hi
    unfold generate_statistics
    have hi' : i < ((List.range total_groups).map
        (fun i => statsRow (sorted_departments groups)
          (groups.getD i []))).length := by
      simp [hi]
    rw [List.getD_eq_getElem _ _ hi', List.getElem_map, List.getElem_range]
  have hcov : ∀ i, i < total_groups → ∀ r ∈ groups.getD i [],
      r.department ∈ sorted_departments groups := by
    intro i hi r hr
    rw [mem_sorted_departments]
    refine ⟨r, ?_, rfl⟩
    have hig : i < groups.length := by omega
    rw [List.getD_eq_getElem _ _ hig] at hr
    exact List.mem_flatten.mpr ⟨groups[i], List.getElem_mem _, hr⟩
  refine ⟨?_, rfl, sorted_departments_nodup groups,
    sorted_departments_sorted groups, fun d => mem_sorted_departments groups d,
    ?_, ?_, ?_⟩
  · unfold generate_statistics
    simp
  · intro row hrow
    unfold generate_statistics at hrow
    rcases List.mem_map.mp hrow with ⟨i, _, rfl⟩
    rw [statsRow_eq]
    simp
  · intro i hi
    rw [hrow_i i hi, statsRow_eq]
    exact ⟨sum_countDept _ _ (sorted_departments_nodup groups) (hcov i hi), rfl⟩
  · intro j hj
    unfold generate_statistics
    rw [List.map_map]
    have hfun : ∀ i ∈ List.range total_groups,
        ((fun row : List Nat × Nat => row.1.getD j 0) ∘
          (fun i => statsRow (sorted_departments groups) (groups.getD i []))) i
          = countDept ((sorted_departments groups).getD j "")
              (groups.getD i []) := by
      intro i _
      simp only [Function.comp_apply, statsRow_eq]
      have hj' : j < ((sorted_departments groups).map
          (fun d => countDept d (groups.getD i []))).length := by
        simp [hj]
      rw [List.getD_eq_getElem _ _ hj', List.getElem_map]
      congr 1
      rw [List.getD_eq_getElem _ _ hj]
    rw [List.map_congr_left hfun, ← hlen, map_range_getD groups
      (fun g => countDept ((sorted_departments groups).getD j "") g),
      sum_over_groups_countDept]
    exact countDept_perm hperm _

/-- Witness for `claim_statistics_consistency`: two singleton groups with
departments `AA` and `BB`. -/
theorem claim_statistics_consistency_witness :
    ([[mkRec "a" "AA"], [mkRec "b" "BB"]] :
      List (List StudentRecord)).length = 2 ∧
    ([[mkRec "a" "AA"], [mkRec "b" "BB"]] :
      List (List StudentRecord)).flatten.Perm
        [mkRec "a" "AA", mkRec "b" "BB"] ∧
    (generate_statistics [[mkRec "a" "AA"], [mkRec "b" "BB"]] 2).2.length = 2 ∧
    (generate_statistics [[mkRec "a" "AA"], [mkRec "b" "BB"]] 2).1
      = sorted_departments [[mkRec "a" "AA"], [mkRec "b" "BB"]]
          ++ ["Total_Students"] := by
  have h := claim_statistics_consistency
    [[mkRec "a" "AA"], [mkRec "b" "BB"]]
    [mkRec "a" "AA", mkRec "b" "BB"] 2 (by decide) (List.Perm.refl _)
  exact ⟨by decide, List.Perm.refl _, h.1, h.2.1⟩
